import Mathlib

/-!
Verification of the bevy-patch pipeline (src/main.rs): repository-reference
normalization (`user_friendly_repo`), API query construction (`api_url`),
crate discovery (local directory listing and the GitHub contents API), and
manifest patch-block rendering.

Strings are modelled as their lists of characters. All pattern literals the
program uses are ASCII, for which byte-level (Rust) and character-level
substring matching on UTF-8 text coincide.
-/

/-- Rust `str::contains`: `true` iff `pat` occurs as a contiguous substring
of `s` (the empty pattern always occurs). -/
def containsSub : List Char → List Char → Bool
  | [], pat => pat.isEmpty
  | c :: rest, pat => pat.isPrefixOf (c :: rest) || containsSub rest pat

/-- Worker for `replaceSub`, structurally recursive on a fuel bound that is
at least the length of the text being scanned. -/
def replaceFuel (pat rep : List Char) : Nat → List Char → List Char
  | _, [] => []
  | 0, s => s
  | fuel + 1, c :: rest =>
    if pat.isPrefixOf (c :: rest) && !pat.isEmpty then
      rep ++ replaceFuel pat rep fuel (rest.drop (pat.length - 1))
    else
      c :: replaceFuel pat rep fuel rest

/-- Rust `str::replace`: replace every leftmost non-overlapping occurrence of
`pat` in `s` by `rep`. (The program only calls it with non-empty patterns;
for the empty pattern this model returns `s` unchanged.) -/
def replaceSub (s pat rep : List Char) : List Char :=
  replaceFuel pat rep s.length s

/-- The pattern `"http://"` of src/main.rs line 101. -/
def patHttp : List Char := "http://".data

/-- The replacement `"https://"` of src/main.rs line 101, also the scheme
checked on line 104. -/
def repHttps : List Char := "https://".data

/-- The host marker `"github.com/"` of src/main.rs lines 96-97 and 113. -/
def hostGithub : List Char := "github.com/".data

/-- Step 1 of `user_friendly_repo` (src/main.rs lines 90-93): append `/bevy`
when the input contains no `/`. -/
def ensureRepoName (s : List Char) : List Char :=
  if containsSub s "/".data then s else s ++ "/bevy".data

/-- Step 2 of `user_friendly_repo` (src/main.rs lines 95-98): prefix
`github.com/` when absent. -/
def ensureHost (s : List Char) : List Char :=
  if containsSub s hostGithub then s else hostGithub ++ s

/-- Step 3 of `user_friendly_repo` (src/main.rs lines 100-101): rewrite
`http://` to `https://`. -/
def fixScheme (s : List Char) : List Char :=
  replaceSub s patHttp repHttps

/-- Step 4 of `user_friendly_repo` (src/main.rs lines 103-106): prefix
`https://` when absent. -/
def ensureScheme (s : List Char) : List Char :=
  if containsSub s repHttps then s else repHttps ++ s

/-- Steps 2-4 of `user_friendly_repo`: the host/scheme rules, run after the
repository-name rule. -/
def hostSchemeSteps (s : List Char) : List Char :=
  ensureScheme (fixScheme (ensureHost s))

/-- `user_friendly_repo` on character lists (src/main.rs lines 87-109): the
four sequential reassignments of `corrected`. -/
def normList (s : List Char) : List Char :=
  hostSchemeSteps (ensureRepoName s)

/-- `user_friendly_repo` from src/main.rs: canonicalise a loosely-formatted
repository reference. -/
def user_friendly_repo (repo : String) : String :=
  ⟨normList repo.data⟩

/-- `api_url` from src/main.rs (lines 111-121): normalise the repository,
point it at the REST API, strip one trailing `.git`, and append the
contents query for the `crates` directory at the requested ref. -/
def api_url (repo git_ref : String) : String :=
  let r := replaceSub (user_friendly_repo repo).data hostGithub
      "api.github.com/repos/".data
  let r2 := if ".git".data.isSuffixOf r then r.take (r.length - 4) else r
  ⟨r2 ++ "/contents/crates?ref=".data ++ git_ref.data⟩

/-- The API Query Builder as the spec words it (spec §4.2), for comparison
with `api_url`: take the normalized repository URL; replace the literal
substring `github.com/` with `api.github.com/repos/`; if the result ends
with `.git`, strip the trailing 4 characters; append
`/contents/crates?ref=<git_ref>`. -/
def apiQuerySpec (repo git_r : String) : String :=
  let normalized := (user_friendly_repo repo).data
  let replaced := replaceSub normalized hostGithub "api.github.com/repos/".data
  let stripped :=
    if ".git".data.isSuffixOf replaced then replaced.take (replaced.length - 4) else replaced
  ⟨stripped ++ "/contents/crates?ref=".data ++ git_r.data⟩

/-- A record of the GitHub contents API response (src/main.rs lines 38-43). -/
structure GithubContent where
  name : String
  content_type : String
deriving DecidableEq

/-- The GitHub error record (src/main.rs lines 45-50). -/
structure GithubError where
  message : String
  status : String
deriving DecidableEq

/-- Lexicographic order on character lists: Rust's `Ord for String` compares
UTF-8 byte sequences, which orders exactly like the code-point sequences. -/
def listCharLe : List Char → List Char → Bool
  | [], _ => true
  | _ :: _, [] => false
  | a :: as, b :: bs => if a = b then listCharLe as bs else decide (a < b)

/-- Rust's `Ord for String`, as a Boolean relation. -/
def strLe (a b : String) : Bool :=
  listCharLe a.data b.data

/-- `Display for GithubError` (src/main.rs lines 54-58): `"<status>: <message>"`. -/
def githubErrorDisplay (e : GithubError) : String :=
  e.status ++ ": " ++ e.message

/-- The HTTP-200 branch of `fetch_crates_from_github` (src/main.rs lines
134-145): keep the records whose type is `dir`, take their names, sort
ascending. `List.insertionSort` models Rust's stable ascending `Vec::sort`
extensionally: on a total order both produce the one sorted stable
permutation of the input. -/
def crates_of_content (content : List GithubContent) : List String :=
  List.insertionSort (fun a b => strLe a b = true)
    ((content.filter (fun c => c.content_type == "dir")).map (fun c => c.name))

/-- Abstract outcome of the HTTP transport: the response status together with
the possible parses of the body (`none` where the body does not parse at the
corresponding JSON shape). -/
structure HttpAttempt where
  status : Nat
  contentBody : Option (List GithubContent)
  errorBody : Option GithubError

/-- `fetch_crates_from_github` (src/main.rs lines 123-150) with the HTTP
transport abstracted: `none` models a request that could not be sent.
Errors are modelled by their anyhow messages. -/
def fetch_crates_from_github (send : Option HttpAttempt) : Except String (List String) :=
  match send with
  | none => .error "Failed to fetch from GitHub"
  | some resp =>
    if resp.status = 200 then
      match resp.contentBody with
      | none => .error "Failed to parse GitHub response"
      | some content => .ok (crates_of_content content)
    else
      match resp.errorBody with
      | none => .error "Failed to parse GitHub response"
      | some e => .error (githubErrorDisplay e)

/-- A directory entry as observed by `fetch_crates_from_local`: whether it is
a directory, and its name when representable as valid text (`none` models an
`OsString` on which `into_string` fails). -/
structure DirEntry where
  is_dir : Bool
  valid_name : Option String

/-- The error taxonomy of local discovery. -/
inductive LocalFetchError where
  | ioError
  | nameEncodingError
deriving DecidableEq

/-- The entry loop of `fetch_crates_from_local` (src/main.rs lines 62-75):
skip non-directory entries, convert each kept entry's name, failing on a
kept entry whose name is not representable. -/
def collectLocalCrates : List DirEntry → Except LocalFetchError (List String)
  | [] => .ok []
  | e :: rest =>
    if !e.is_dir then collectLocalCrates rest
    else
      match e.valid_name with
      | none => .error .nameEncodingError
      | some n => (collectLocalCrates rest).map (fun ns => n :: ns)

/-- `fetch_crates_from_local` (src/main.rs lines 60-78) with the filesystem
abstracted: `read_dir` on `<path>/crates` either fails (`none`, e.g. the
directory does not exist) or yields its entries in iteration order. -/
def fetch_crates_from_local (dir : Option (List DirEntry)) :
    Except LocalFetchError (List String) :=
  match dir with
  | none => .error .ioError
  | some entries => collectLocalCrates entries

/-- Ref selection in `main` (src/main.rs lines 175-179):
`tag.or(branch).or(rev).unwrap_or("main")`. -/
def git_ref (tag branch rev : Option String) : String :=
  ((tag.or branch).or rev).getD "main"

/-- The git ref specifier built in `main` (src/main.rs lines 185-193). -/
def specifier (tag branch rev : Option String) : String :=
  match tag with
  | some t => "tag = \"" ++ t ++ "\""
  | none =>
    match branch with
    | some b => "branch = \"" ++ b ++ "\""
    | none =>
      match rev with
      | some r => "rev = \"" ++ r ++ "\""
      | none => "branch = \"main\""

/-- The lines `main` pushes in `Path` mode (src/main.rs lines 155-167). -/
def path_lines (path : String) (crates : List String) : List String :=
  "[patch.crates-io]" :: "# Bevy Patch" ::
    ("bevy = \x7b path = \"" ++ path ++ "\" \x7d") ::
    crates.map (fun c => c ++ " = \x7b path = \"" ++ path ++ "/crates/" ++ c ++ "\" \x7d")

/-- The lines `main` pushes in `Git` mode (src/main.rs lines 155-158 and
195-198); `repo` is the repository string after normalisation, exactly as
`main` rebinds it on line 181. -/
def git_lines (repo : String) (tag branch rev : Option String) (crates : List String) :
    List String :=
  "[patch.crates-io]" :: "# Bevy Patch" ::
    ("bevy = \x7b git = \"" ++ repo ++ "\", " ++ specifier tag branch rev ++ " \x7d") ::
    crates.map
      (fun c => c ++ " = \x7b git = \"" ++ repo ++ "\", " ++ specifier tag branch rev ++ " \x7d")

/-- The output of a successful run: the pushed lines joined by newlines, as
printed by `println!` on src/main.rs line 202. -/
def joinLines (lines : List String) : String :=
  String.intercalate "\n" lines

/-- Rust `Debug` formatting of a string over the printable characters the
program deals with: wrap in quotes, escaping backslashes, quotes and the
common control characters (std's escaping of further control characters is
outside the inputs exercised here). -/
def debugEscape (c : Char) : List Char :=
  if c = '"' then ['\\', '"']
  else if c = '\\' then ['\\', '\\']
  else if c = '\n' then ['\\', 'n']
  else if c = '\t' then ['\\', 't']
  else if c = '\r' then ['\\', 'r']
  else [c]

/-- Rust `Debug` of a string (used by the `{:?}` placeholders on line 183). -/
def debugStr (s : String) : String :=
  "\"" ++ (⟨(s.data.map debugEscape).flatten⟩ : String) ++ "\""

/-- The context annotation attached in `Git` mode (src/main.rs line 183):
`format!("Github url: {:?}, ref: {:?}", repo, git_ref)`. -/
def gitContextMsg (repo git_r : String) : String :=
  "Github url: " ++ debugStr repo ++ ", ref: " ++ debugStr git_r

/-- `main` in `Path` mode (src/main.rs lines 160-168 and 202-203): the block
text exists only when local discovery succeeded; a discovery failure
propagates unchanged and nothing is printed. -/
def run_path (path : String) (dir : Option (List DirEntry)) :
    Except LocalFetchError String :=
  match fetch_crates_from_local dir with
  | .error e => .error e
  | .ok crates => .ok (joinLines (path_lines path crates))

/-- `main` in `Git` mode (src/main.rs lines 169-199 and 202-203). An error is
modelled as its anyhow context chain, outermost context first. -/
def run_git (repo : String) (tag branch rev : Option String)
    (send : Option HttpAttempt) : Except (List String) String :=
  let ref := git_ref tag branch rev
  let repo' := user_friendly_repo repo
  match fetch_crates_from_github send with
  | .error cause => .error [gitContextMsg repo' ref, cause]
  | .ok crates => .ok (joinLines (git_lines repo' tag branch rev crates))

/-- Modelled from the spec: the process exit plumbing is outside src/ — a
`main` returning a `Result` terminates with status 0 on `Ok` and a non-zero
status on `Err`. -/
def exitCode {ε α : Type} : Except ε α → Nat
  | .ok _ => 0
  | .error _ => 1

example : user_friendly_repo "aceeri" = "https://github.com/aceeri/bevy" := by decide

example : crates_of_content
    [⟨"b", "dir"⟩, ⟨"a", "dir"⟩, ⟨"c", "file"⟩] = ["a", "b"] := by decide

example : path_lines "/repo" ["a", "b"] =
    ["[patch.crates-io]", "# Bevy Patch", "bevy = \x7b path = \"/repo\" \x7d",
     "a = \x7b path = \"/repo/crates/a\" \x7d", "b = \x7b path = \"/repo/crates/b\" \x7d"] := by
  decide

example : git_lines "https://github.com/x/bevy" (some "v1") none none ["a"] =
    ["[patch.crates-io]", "# Bevy Patch",
     "bevy = \x7b git = \"https://github.com/x/bevy\", tag = \"v1\" \x7d",
     "a = \x7b git = \"https://github.com/x/bevy\", tag = \"v1\" \x7d"] := by decide

example : user_friendly_repo "http://github.com/aceeri/bevy" =
    "https://github.com/aceeri/bevy" := by decide

example : api_url "https://github.com/aceeri/bevy.git" "main" =
    "https://api.github.com/repos/aceeri/bevy/contents/crates?ref=main" := by decide

/-! ### General string lemmas -/

theorem containsSub_eq_true_iff (s pat : List Char) :
    containsSub s pat = true ↔ pat <:+: s := by
  induction s with
  | nil => simp [containsSub, List.isEmpty_iff]
  | cons c rest ih => simp [containsSub, ih, List.infix_cons_iff]

theorem containsSub_eq_false_iff (s pat : List Char) :
    containsSub s pat = false ↔ ¬ pat <:+: s := by
  rw [← containsSub_eq_true_iff s pat]
  cases h : containsSub s pat <;> simp

theorem infix_split_of_append {α : Type} {l x y : List α} (h : l <:+: x ++ y) :
    l <:+: x ∨ l <:+: y ∨
      ∃ a b, l = a ++ b ∧ a ≠ [] ∧ b ≠ [] ∧ a <:+ x ∧ b <+: y := by
  obtain ⟨u, v, huv⟩ := h
  rw [List.append_assoc] at huv
  rcases List.append_eq_append_iff.mp huv with ⟨w, hx, hlv⟩ | ⟨w, hu, hy⟩
  · rcases List.append_eq_append_iff.mp hlv with ⟨w', hw, hv⟩ | ⟨w', hl, hy'⟩
    · left
      exact ⟨u, w', by rw [hx, hw, List.append_assoc]⟩
    · by_cases hw0 : w = []
      · right; left
        subst hw0
        simp only [List.nil_append] at hl
        exact ⟨[], v, by rw [hy', hl, List.nil_append]⟩
      · by_cases hw'0 : w' = []
        · left
          subst hw'0
          rw [List.append_nil] at hl
          exact ⟨u, [], by rw [List.append_nil, hx, hl]⟩
        · right; right
          exact ⟨w, w', hl, hw0, hw'0, ⟨u, hx.symm⟩, ⟨v, hy'.symm⟩⟩
  · right; left
    exact ⟨w, v, by rw [hy, List.append_assoc]⟩

theorem infix_of_infix_append_right {α : Type} (x : List α) {l y : List α}
    (h : l <:+: y) : l <:+: x ++ y := by
  obtain ⟨u, v, huv⟩ := h
  exact ⟨x ++ u, v, by rw [← huv]; simp [List.append_assoc]⟩

/-! ### replaceFuel lemmas -/

theorem replaceFuel_nil (pat rep : List Char) (fuel : Nat) :
    replaceFuel pat rep fuel [] = [] := by
  cases fuel <;> rfl

theorem replaceFuel_cons (pat rep : List Char) (fuel : Nat) (c : Char) (rest : List Char) :
    replaceFuel pat rep (fuel + 1) (c :: rest) =
      if pat.isPrefixOf (c :: rest) && !pat.isEmpty then
        rep ++ replaceFuel pat rep fuel (rest.drop (pat.length - 1))
      else
        c :: replaceFuel pat rep fuel rest := rfl

theorem replaceFuel_of_not_contains (pat rep : List Char) (fuel : Nat) :
    ∀ s : List Char, ¬ pat <:+: s → replaceFuel pat rep fuel s = s := by
  induction fuel with
  | zero => intro s _; cases s <;> rfl
  | succ fuel ih =>
    intro s h
    cases s with
    | nil => rfl
    | cons c rest =>
      rw [replaceFuel_cons]
      have hpre : ¬ pat <+: (c :: rest) := fun hp => h hp.isInfix
      have hb : pat.isPrefixOf (c :: rest) = false := by
        simp only [Bool.eq_false_iff, ne_eq, List.isPrefixOf_iff_prefix]
        exact hpre
      have h2 : ¬ pat <:+: rest := fun hr => h (List.infix_cons_iff.mpr (Or.inr hr))
      simp [hb, ih rest h2]

/-- A list that is both a suffix of `"https://"` and a prefix of `"http://"`
is empty. -/
theorem suffix_rep_prefix_pat_eq_nil {a : List Char} (h1 : a <:+ repHttps)
    (h2 : a <+: patHttp) : a = [] := by
  have hd : ∀ u ∈ repHttps.tails, u.isPrefixOf patHttp = true → u = [] := by decide
  refine hd a ((List.mem_tails a repHttps).mpr h1) ?_
  simpa using h2

/-- Any proper suffix of the pattern `"http://"` that is a prefix of the
output of the replacement is already a prefix of the input: the replacement
never manufactures a partial occurrence of the pattern at a kept position. -/
theorem proper_suffix_pat_pres :
    ∀ (fuel : Nat) (s t : List Char), s.length ≤ fuel →
      t <:+ patHttp → t ≠ [] → t ≠ patHttp →
      t <+: replaceFuel patHttp repHttps fuel s → t <+: s := by
  intro fuel
  induction fuel with
  | zero =>
    intro s t hlen _ _ _ hpre
    have hs : s = [] := List.length_eq_zero.mp (Nat.le_zero.mp hlen)
    subst hs
    rwa [replaceFuel_nil] at hpre
  | succ fuel ih =>
    intro s t hlen hsuf hne hnepat hpre
    cases s with
    | nil => rwa [replaceFuel_nil] at hpre
    | cons c rest =>
      rw [replaceFuel_cons] at hpre
      by_cases hguard : (patHttp.isPrefixOf (c :: rest) && !patHttp.isEmpty) = true
      · rw [if_pos hguard] at hpre
        exfalso
        have hlen6 : t.length ≤ 6 := by
          have hd : ∀ u ∈ patHttp.tails, u ≠ patHttp → u.length ≤ 6 := by decide
          exact hd t ((List.mem_tails t patHttp).mpr hsuf) hnepat
        have htR : t <+: repHttps := by
          apply List.prefix_of_prefix_length_le hpre (List.prefix_append repHttps _)
          have h8 : repHttps.length = 8 := by decide
          omega
        have ht0 : t = [] := by
          have hd : ∀ u ∈ patHttp.tails, u.isPrefixOf repHttps = true → u = [] := by decide
          refine hd t ((List.mem_tails t patHttp).mpr hsuf) ?_
          simpa using htR
        exact hne ht0
      · rw [if_neg hguard] at hpre
        rcases List.prefix_cons_iff.mp hpre with h0 | ⟨t', ht', htail⟩
        · exact absurd h0 hne
        · by_cases ht'0 : t' = []
          · subst ht'0
            rw [ht']
            exact ⟨rest, rfl⟩
          · have hlen' : rest.length ≤ fuel := by simpa using hlen
            have ht'suf : t' <:+ patHttp :=
              List.IsSuffix.trans ⟨[c], by rw [ht']; simp⟩ hsuf
            have ht'nepat : t' ≠ patHttp := by
              intro he
              have hl := hsuf.length_le
              rw [ht', he] at hl
              simp only [List.length_cons] at hl
              omega
            have hres := ih rest t' hlen' ht'suf ht'0 ht'nepat htail
            rw [ht']
            exact (List.prefix_cons_inj c).mpr hres

/-- The replacement of `"http://"` by `"https://"` leaves no occurrence of
`"http://"` in its output. -/
theorem not_pat_infix_replaceFuel :
    ∀ (fuel : Nat) (s : List Char), s.length ≤ fuel →
      ¬ patHttp <:+: replaceFuel patHttp repHttps fuel s := by
  intro fuel
  induction fuel with
  | zero =>
    intro s hlen
    have hs : s = [] := List.length_eq_zero.mp (Nat.le_zero.mp hlen)
    subst hs
    rw [replaceFuel_nil]
    simp only [List.infix_nil]
    decide
  | succ fuel ih =>
    intro s hlen
    cases s with
    | nil =>
      rw [replaceFuel_nil]
      simp only [List.infix_nil]
      decide
    | cons c rest =>
      have hlen' : rest.length ≤ fuel := by simpa using hlen
      rw [replaceFuel_cons]
      by_cases hguard : (patHttp.isPrefixOf (c :: rest) && !patHttp.isEmpty) = true
      · rw [if_pos hguard]
        intro hinf
        rcases infix_split_of_append hinf with h1 | h2 | ⟨a, b, hab, ha0, _hb0, hasuf, _hbpre⟩
        · exact (by decide : ¬ patHttp <:+: repHttps) h1
        · have hlen'' : (rest.drop (patHttp.length - 1)).length ≤ fuel := by
            simp only [List.length_drop]
            omega
          exact ih _ hlen'' h2
        · exact ha0 (suffix_rep_prefix_pat_eq_nil hasuf ⟨b, hab.symm⟩)
      · rw [if_neg hguard]
        intro hinf
        rcases List.infix_cons_iff.mp hinf with hpre | hrest
        · rcases List.prefix_cons_iff.mp hpre with h0 | ⟨t', ht', htail⟩
          · exact (by decide : patHttp ≠ []) h0
          · have h7 : patHttp.length = 7 := by decide
            have ht'len : t'.length = 6 := by
              rw [ht'] at h7
              simp only [List.length_cons] at h7
              omega
            have ht'suf : t' <:+ patHttp := by
              rw [ht']
              exact ⟨[c], rfl⟩
            have ht'0 : t' ≠ [] := by
              intro h
              rw [h] at ht'len
              simp at ht'len
            have ht'nepat : t' ≠ patHttp := by
              intro h
              rw [h, h7] at ht'len
              omega
            have hpr : t' <+: rest :=
              proper_suffix_pat_pres fuel rest t' hlen' ht'suf ht'0 ht'nepat htail
            apply hguard
            have hpp : patHttp <+: c :: rest := by
              rw [ht']
              exact (List.prefix_cons_inj c).mpr hpr
            have h1 : patHttp.isPrefixOf (c :: rest) = true := by simpa using hpp
            have h2 : patHttp.isEmpty = false := by decide
            rw [h1, h2]
            rfl
        · exact ih rest hlen' hrest

/-- Any suffix of `"github.com/"` that is a prefix of the input remains a
prefix of the replacement output: no occurrence of `"http://"` can start
inside such a prefix. -/
theorem suffix_host_prefix_pres :
    ∀ (fuel : Nat) (s g : List Char), s.length ≤ fuel →
      g <:+ hostGithub → g <+: s →
      g <+: replaceFuel patHttp repHttps fuel s := by
  intro fuel
  induction fuel with
  | zero =>
    intro s g hlen _ hpre
    have hs : s = [] := List.length_eq_zero.mp (Nat.le_zero.mp hlen)
    subst hs
    rwa [replaceFuel_nil]
  | succ fuel ih =>
    intro s g hlen hsuf hpre
    cases s with
    | nil => rwa [replaceFuel_nil]
    | cons c rest =>
      have hlen' : rest.length ≤ fuel := by simpa using hlen
      rw [replaceFuel_cons]
      by_cases hguard : (patHttp.isPrefixOf (c :: rest) && !patHttp.isEmpty) = true
      · rw [if_pos hguard]
        by_cases hg0 : g = []
        · subst hg0
          exact List.nil_prefix
        · exfalso
          have hP : patHttp <+: c :: rest := by
            have h1 : patHttp.isPrefixOf (c :: rest) = true := by
              cases hx : patHttp.isPrefixOf (c :: rest) with
              | true => rfl
              | false => rw [hx] at hguard; simp at hguard
            simpa using h1
          rcases Nat.le_total g.length patHttp.length with hle | hge
          · have hgP : g <+: patHttp := List.prefix_of_prefix_length_le hpre hP hle
            have : g = [] := by
              have hd : ∀ u ∈ hostGithub.tails, u.isPrefixOf patHttp = true → u = [] := by
                decide
              refine hd g ((List.mem_tails g hostGithub).mpr hsuf) ?_
              simpa using hgP
            exact hg0 this
          · have hPg : patHttp <+: g := List.prefix_of_prefix_length_le hP hpre hge
            have : patHttp <:+: hostGithub := List.IsInfix.trans hPg.isInfix hsuf.isInfix
            exact (by decide : ¬ patHttp <:+: hostGithub) this
      · rw [if_neg hguard]
        rcases List.prefix_cons_iff.mp hpre with h0 | ⟨g', hg', hgtail⟩
        · subst h0
          exact List.nil_prefix
        · have hg'suf : g' <:+ hostGithub :=
            List.IsSuffix.trans ⟨[c], by rw [hg']; simp⟩ hsuf
          have hres := ih rest g' hlen' hg'suf hgtail
          rw [hg']
          exact (List.prefix_cons_inj c).mpr hres

/-- Every occurrence of `"github.com/"` survives the replacement of
`"http://"` by `"https://"`. -/
theorem host_infix_replaceFuel :
    ∀ (fuel : Nat) (s : List Char), s.length ≤ fuel → hostGithub <:+: s →
      hostGithub <:+: replaceFuel patHttp repHttps fuel s := by
  intro fuel
  induction fuel with
  | zero =>
    intro s hlen hinf
    have hs : s = [] := List.length_eq_zero.mp (Nat.le_zero.mp hlen)
    subst hs
    have : hostGithub = [] := by simpa using hinf
    exact absurd this (by decide)
  | succ fuel ih =>
    intro s hlen hinf
    cases s with
    | nil =>
      have : hostGithub = [] := by simpa using hinf
      exact absurd this (by decide)
    | cons c rest =>
      have hlen' : rest.length ≤ fuel := by simpa using hlen
      by_cases hguard : (patHttp.isPrefixOf (c :: rest) && !patHttp.isEmpty) = true
      · rw [replaceFuel_cons, if_pos hguard]
        have hP : patHttp <+: c :: rest := by
          have h1 : patHttp.isPrefixOf (c :: rest) = true := by
            cases hx : patHttp.isPrefixOf (c :: rest) with
            | true => rfl
            | false => rw [hx] at hguard; simp at hguard
          simpa using h1
        obtain ⟨tl, htl⟩ := hP
        have h7 : patHttp.length = 7 := by decide
        have htl' : rest.drop (patHttp.length - 1) = tl := by
          have h := congrArg (List.drop patHttp.length) htl
          rw [List.drop_left] at h
          rw [h7] at h ⊢
          simpa [List.drop_succ_cons] using h.symm
        have hlentl : tl.length ≤ fuel := by
          have := congrArg List.length htl
          simp only [List.length_append, List.length_cons, h7] at this
          omega
        rw [htl']
        have hinf' : hostGithub <:+: patHttp ++ tl := by
          rw [htl]
          exact hinf
        rcases infix_split_of_append hinf' with h1 | h2 | ⟨a, b, hab, ha0, _hb0, hasuf, _hbpre⟩
        · exact absurd h1 (by decide : ¬ hostGithub <:+: patHttp)
        · exact infix_of_infix_append_right repHttps (ih tl hlentl h2)
        · exfalso
          have : a = [] := by
            have hd : ∀ u ∈ patHttp.tails, u.isPrefixOf hostGithub = true → u = [] := by
              decide
            refine hd a ((List.mem_tails a patHttp).mpr hasuf) ?_
            have : a <+: hostGithub := ⟨b, hab.symm⟩
            simpa using this
          exact ha0 this
      · rcases List.infix_cons_iff.mp hinf with hpre | hrest
        · exact List.IsPrefix.isInfix (suffix_host_prefix_pres (fuel + 1) (c :: rest)
            hostGithub hlen (List.suffix_refl hostGithub) hpre)
        · rw [replaceFuel_cons, if_neg hguard]
          exact List.infix_cons_iff.mpr (Or.inr (ih rest hlen' hrest))

/-- The normaliser's output always contains `github.com/`. -/
theorem host_infix_normList (s : List Char) : hostGithub <:+: normList s := by
  unfold normList hostSchemeSteps
  have h2 : hostGithub <:+: ensureHost (ensureRepoName s) := by
    unfold ensureHost
    by_cases h : containsSub (ensureRepoName s) hostGithub = true
    · rw [if_pos h]
      exact (containsSub_eq_true_iff _ _).mp h
    · rw [if_neg h]
      exact List.IsPrefix.isInfix (List.prefix_append hostGithub _)
  have h3 : hostGithub <:+: fixScheme (ensureHost (ensureRepoName s)) :=
    host_infix_replaceFuel _ _ (Nat.le_refl _) h2
  unfold ensureScheme
  by_cases h : containsSub (fixScheme (ensureHost (ensureRepoName s))) repHttps = true
  · rw [if_pos h]
    exact h3
  · rw [if_neg h]
    exact infix_of_infix_append_right repHttps h3

/-- The normaliser's output always contains `https://`. -/
theorem scheme_infix_normList (s : List Char) : repHttps <:+: normList s := by
  unfold normList hostSchemeSteps ensureScheme
  by_cases h : containsSub (fixScheme (ensureHost (ensureRepoName s))) repHttps = true
  · rw [if_pos h]
    exact (containsSub_eq_true_iff _ _).mp h
  · rw [if_neg h]
    exact List.IsPrefix.isInfix (List.prefix_append repHttps _)

/-- The normaliser's output never contains `http://`. -/
theorem not_pat_infix_normList (s : List Char) : ¬ patHttp <:+: normList s := by
  unfold normList hostSchemeSteps
  have h3 : ¬ patHttp <:+: fixScheme (ensureHost (ensureRepoName s)) :=
    not_pat_infix_replaceFuel _ _ (Nat.le_refl _)
  unfold ensureScheme
  by_cases h : containsSub (fixScheme (ensureHost (ensureRepoName s))) repHttps = true
  · rw [if_pos h]
    exact h3
  · rw [if_neg h]
    intro hinf
    rcases infix_split_of_append hinf with h1 | h2 | ⟨a, b, hab, ha0, _hb0, hasuf, _hbpre⟩
    · exact (by decide : ¬ patHttp <:+: repHttps) h1
    · exact h3 h2
    · exact ha0 (suffix_rep_prefix_pat_eq_nil hasuf ⟨b, hab.symm⟩)

/-- A string that already contains `github.com/` and `https://` and has no
occurrence of `http://` is a fixed point of the normaliser. -/
theorem normList_fixed {z : List Char} (hhost : hostGithub <:+: z)
    (hscheme : repHttps <:+: z) (hnop : ¬ patHttp <:+: z) :
    normList z = z := by
  have hslash : "/".data <:+: z :=
    List.IsInfix.trans (by decide : "/".data <:+: hostGithub) hhost
  have h1 : containsSub z "/".data = true := (containsSub_eq_true_iff _ _).mpr hslash
  have h2 : containsSub z hostGithub = true := (containsSub_eq_true_iff _ _).mpr hhost
  have h4 : containsSub z repHttps = true := (containsSub_eq_true_iff _ _).mpr hscheme
  have h3 : replaceSub z patHttp repHttps = z :=
    replaceFuel_of_not_contains patHttp repHttps z.length z hnop
  simp [normList, hostSchemeSteps, ensureRepoName, ensureHost, fixScheme, ensureScheme,
    h1, h2, h3, h4]

/-- The normaliser is idempotent on character lists. -/
theorem normList_idem (s : List Char) : normList (normList s) = normList s :=
  normList_fixed (host_infix_normList s) (scheme_infix_normList s) (not_pat_infix_normList s)

/-! ### The Rust string order -/

theorem listCharLe_total : ∀ a b : List Char, listCharLe a b = true ∨ listCharLe b a = true := by
  intro a
  induction a with
  | nil => intro b; left; rfl
  | cons x xs ih =>
    intro b
    cases b with
    | nil => right; rfl
    | cons y ys =>
      by_cases hxy : x = y
      · subst hxy
        rcases ih ys with h | h
        · left; simpa [listCharLe] using h
        · right; simpa [listCharLe] using h
      · rcases lt_or_gt_of_ne hxy with h | h
        · left; simp [listCharLe, hxy, h]
        · right; simp [listCharLe, Ne.symm hxy, h]

theorem listCharLe_trans : ∀ a b c : List Char, listCharLe a b = true →
    listCharLe b c = true → listCharLe a c = true := by
  intro a
  induction a with
  | nil => intros; rfl
  | cons x xs ih =>
    intro b c hab hbc
    cases b with
    | nil => simp [listCharLe] at hab
    | cons y ys =>
      cases c with
      | nil => simp [listCharLe] at hbc
      | cons z zs =>
        simp only [listCharLe] at hab hbc ⊢
        by_cases hxy : x = y <;> by_cases hyz : y = z
        · subst hxy; subst hyz
          rw [if_pos rfl] at hab hbc ⊢
          exact ih _ _ hab hbc
        · subst hxy
          rw [if_pos rfl] at hab
          rw [if_neg hyz] at hbc
          have hlt : x < z := of_decide_eq_true hbc
          rw [if_neg (ne_of_lt hlt)]
          simpa using hlt
        · subst hyz
          rw [if_neg hxy] at hab
          rw [if_pos rfl] at hbc
          have hlt : x < y := of_decide_eq_true hab
          rw [if_neg (ne_of_lt hlt)]
          simpa using hlt
        · rw [if_neg hxy] at hab
          rw [if_neg hyz] at hbc
          have h1 : x < y := of_decide_eq_true hab
          have h2 : y < z := of_decide_eq_true hbc
          have h3 : x < z := lt_trans h1 h2
          rw [if_neg (ne_of_lt h3)]
          simpa using h3

/-! ### Local discovery lemmas -/

theorem collectLocalCrates_err {entries : List DirEntry}
    (h : ∃ e ∈ entries, e.is_dir = true ∧ e.valid_name = none) :
    collectLocalCrates entries = .error .nameEncodingError := by
  induction entries with
  | nil => simp at h
  | cons e rest ih =>
    rcases h with ⟨e', he', hprop⟩
    rcases List.mem_cons.mp he' with rfl | hmem
    · simp only [collectLocalCrates, hprop.1, hprop.2, Bool.not_true]
      rfl
    · have hrec := ih ⟨e', hmem, hprop⟩
      by_cases hd : e.is_dir = true
      · cases hv : e.valid_name with
        | none => simp [collectLocalCrates, hd, hv]
        | some n => simp [collectLocalCrates, hd, hv, hrec, Except.map]
      · have hd' : e.is_dir = false := by simpa using hd
        simp [collectLocalCrates, hd', hrec]

theorem collectLocalCrates_ok {entries : List DirEntry}
    (h : ∀ e ∈ entries, e.is_dir = true → e.valid_name.isSome) :
    collectLocalCrates entries =
      .ok ((entries.filter (fun e => e.is_dir)).filterMap (fun e => e.valid_name)) := by
  induction entries with
  | nil => rfl
  | cons e rest ih =>
    have hrec := ih (fun e' he' => h e' (List.mem_cons_of_mem _ he'))
    by_cases hd : e.is_dir = true
    · have hs := h e (List.mem_cons_self _ _) hd
      rcases Option.isSome_iff_exists.mp hs with ⟨n, hn⟩
      simp [collectLocalCrates, hd, hn, hrec, List.filter_cons, List.filterMap_cons, Except.map]
    · have hd' : e.is_dir = false := by simpa using hd
      simp [collectLocalCrates, hd', hrec, List.filter_cons]

/-! ### Claims -/

/-- C3: the Reference Normalizer applies its rules in order — for every input
containing no `/` it appends `/bevy` and only then applies the host/scheme
rules (steps 2-4) — and `normalize("aceeri") = "https://github.com/aceeri/bevy"`
and `normalize("http://github.com/aceeri/bevy") = "https://github.com/aceeri/bevy"`. -/
theorem c3_normalizer_rules :
    (∀ s : String, containsSub s.data "/".data = false →
      user_friendly_repo s = ⟨hostSchemeSteps (s.data ++ "/bevy".data)⟩) ∧
    user_friendly_repo "aceeri" = "https://github.com/aceeri/bevy" ∧
    user_friendly_repo "http://github.com/aceeri/bevy" =
      "https://github.com/aceeri/bevy" := by
  refine ⟨fun s h => ?_, by decide, by decide⟩
  simp [user_friendly_repo, normList, ensureRepoName, h]

/-- Witness for C3: the no-slash rule discharged at the concrete input
`"aceeri"`. -/
theorem c3_normalizer_rules_witness :
    user_friendly_repo "aceeri" = ⟨hostSchemeSteps ("aceeri".data ++ "/bevy".data)⟩ :=
  c3_normalizer_rules.1 "aceeri" (by decide)

/-- C4: the API Query Builder performs exactly the spec's steps — normalise,
replace `github.com/` by `api.github.com/repos/`, strip one trailing `.git`,
append `/contents/crates?ref=<git_ref>` — and the concrete query of the
claim holds. -/
theorem c4_api_query_builder :
    (∀ repo git_r : String, api_url repo git_r = apiQuerySpec repo git_r) ∧
    api_url "https://github.com/aceeri/bevy.git" "main" =
      "https://api.github.com/repos/aceeri/bevy/contents/crates?ref=main" :=
  ⟨fun _ _ => rfl, by decide⟩

/-- Counterexample to C5: the Reference Normalizer does not strip a trailing
`.git` — on `"https://github.com/aceeri/bevy.git"` it is the identity and its
output ends in `.git`. -/
theorem c5_counterexample :
    user_friendly_repo "https://github.com/aceeri/bevy.git" =
      "https://github.com/aceeri/bevy.git" ∧
    ".git".data.isSuffixOf
      (user_friendly_repo "https://github.com/aceeri/bevy.git").data = true :=
  ⟨by decide, by decide⟩

/-- C5 (amended): for every input, the Reference Normalizer's output contains
the substring `https://` and the substring `github.com/`; a trailing `.git`
is not removed by the normaliser (it is stripped only by the API Query
Builder). -/
theorem c5_amended (s : String) :
    repHttps <:+: (user_friendly_repo s).data ∧
      hostGithub <:+: (user_friendly_repo s).data :=
  ⟨scheme_infix_normList s.data, host_infix_normList s.data⟩

/-- C6: the Reference Normalizer is idempotent on every input string. -/
theorem c6_normalize_idempotent (x : String) :
    user_friendly_repo (user_friendly_repo x) = user_friendly_repo x :=
  congrArg String.mk (normList_idem x.data)

/-- Counterexample to C1: the 200-branch never deduplicates — a body with two
`dir` records of the same name yields that name twice, so the output is not
duplicate-free for every parsed body. -/
theorem c1_counterexample :
    crates_of_content [⟨"a", "dir"⟩, ⟨"a", "dir"⟩] = ["a", "a"] ∧
    ¬ (crates_of_content [⟨"a", "dir"⟩, ⟨"a", "dir"⟩]).Nodup :=
  ⟨by decide, by decide⟩

/-- C1 (amended): the 200-branch returns the ascending-sorted sequence of the
names of exactly the `dir` records — a permutation of those names, sorted in
Rust's string order, duplicate-free whenever the body's names are pairwise
distinct (as for a real directory listing) — and on the claim's body it
returns exactly `["a", "b"]`. -/
theorem c1_remote_discovery :
    (∀ content : List GithubContent,
      (crates_of_content content).Sorted (fun a b => strLe a b = true)) ∧
    (∀ content : List GithubContent,
      List.Perm (crates_of_content content)
        ((content.filter (fun c => c.content_type == "dir")).map (fun c => c.name))) ∧
    (∀ content : List GithubContent,
      (content.map (fun c => c.name)).Nodup → (crates_of_content content).Nodup) ∧
    crates_of_content [⟨"b", "dir"⟩, ⟨"a", "dir"⟩, ⟨"c", "file"⟩] = ["a", "b"] := by
  refine ⟨?_, ?_, ?_, by decide⟩
  · intro content
    haveI : IsTotal String (fun a b => strLe a b = true) :=
      ⟨fun a b => listCharLe_total a.data b.data⟩
    haveI : IsTrans String (fun a b => strLe a b = true) :=
      ⟨fun a b c => listCharLe_trans a.data b.data c.data⟩
    exact List.sorted_insertionSort _ _
  · intro content
    exact List.perm_insertionSort _ _
  · intro content hnd
    have hperm := List.perm_insertionSort (fun a b => strLe a b = true)
      ((content.filter (fun c => c.content_type == "dir")).map (fun c => c.name))
    have hsub : List.Sublist
        ((content.filter (fun c => c.content_type == "dir")).map (fun c => c.name))
        (content.map (fun c => c.name)) :=
      (List.filter_sublist content).map (fun c => c.name)
    exact hperm.nodup_iff.mpr (hnd.sublist hsub)

/-- Witness for C1 (amended): the duplicate-free conclusion discharged on the
claim's concrete body. -/
theorem c1_remote_discovery_witness :
    (crates_of_content [⟨"b", "dir"⟩, ⟨"a", "dir"⟩, ⟨"c", "file"⟩]).Nodup :=
  c1_remote_discovery.2.2.1 _ (by decide)

/-- C2: ref selection follows the fixed precedence tag > branch > revision >
default `branch = "main"` for both the queried ref and the rendered
specifier, the others being ignored; every rendered crate line (umbrella and
each crate) carries the same repository and the same specifier; and the
claim's concrete rendering holds. -/
theorem c2_ref_precedence_uniform :
    (∀ (t : String) (b r : Option String),
      specifier (some t) b r = "tag = \"" ++ t ++ "\"" ∧ git_ref (some t) b r = t) ∧
    (∀ (b : String) (r : Option String),
      specifier none (some b) r = "branch = \"" ++ b ++ "\"" ∧ git_ref none (some b) r = b) ∧
    (∀ r : String,
      specifier none none (some r) = "rev = \"" ++ r ++ "\"" ∧ git_ref none none (some r) = r) ∧
    (specifier none none none = "branch = \"main\"" ∧ git_ref none none none = "main") ∧
    (∀ (repo : String) (tag branch rev : Option String) (crates : List String),
      (git_lines repo tag branch rev crates).drop 2 =
        ("bevy" :: crates).map
          (fun n => n ++ " = \x7b git = \"" ++ repo ++ "\", " ++
            specifier tag branch rev ++ " \x7d")) ∧
    git_lines "https://github.com/x/bevy" (some "v1") none none ["a"] =
      ["[patch.crates-io]", "# Bevy Patch",
       "bevy = \x7b git = \"https://github.com/x/bevy\", tag = \"v1\" \x7d",
       "a = \x7b git = \"https://github.com/x/bevy\", tag = \"v1\" \x7d"] :=
  ⟨fun _ _ _ => ⟨rfl, rfl⟩, fun _ _ => ⟨rfl, rfl⟩, fun _ => ⟨rfl, rfl⟩, ⟨rfl, rfl⟩,
   fun _ _ _ _ _ => rfl, by decide⟩

/-- C7: on a non-200 response whose body parses as an error record, remote
discovery fails with the error displayed as `"<status>: <message>"`; the 404
case of the claim produces exactly (hence contains) `"404: Not Found"`. -/
theorem c7_remote_error :
    (∀ (resp : HttpAttempt) (e : GithubError), resp.status ≠ 200 →
      resp.errorBody = some e →
      fetch_crates_from_github (some resp) = .error (e.status ++ ": " ++ e.message)) ∧
    fetch_crates_from_github (some ⟨404, none, some ⟨"Not Found", "404"⟩⟩) =
      .error "404: Not Found" ∧
    containsSub "404: Not Found".data "404: Not Found".data = true := by
  refine ⟨fun resp e hs he => ?_, rfl, by decide⟩
  simp [fetch_crates_from_github, hs, he, githubErrorDisplay]

/-- Witness for C7: the non-200 branch discharged at the concrete 404
response. -/
theorem c7_remote_error_witness :
    fetch_crates_from_github (some ⟨404, none, some ⟨"Not Found", "404"⟩⟩) =
      .error ("404" ++ ": " ++ "Not Found") :=
  c7_remote_error.1 ⟨404, none, some ⟨"Not Found", "404"⟩⟩ ⟨"Not Found", "404"⟩
    (by decide) rfl

/-- C8: local discovery fails with `IoError` when the directory cannot be
read, fails with `NameEncodingError` when some kept (directory) entry's name
is unrepresentable, otherwise returns precisely the names of the directory
entries (non-directories ignored, in iteration order); the claim's concrete
directory yields `["foo", "bar"]`. -/
theorem c8_local_discovery :
    fetch_crates_from_local none = .error .ioError ∧
    (∀ entries : List DirEntry,
      (∃ e ∈ entries, e.is_dir = true ∧ e.valid_name = none) →
      fetch_crates_from_local (some entries) = .error .nameEncodingError) ∧
    (∀ entries : List DirEntry,
      (∀ e ∈ entries, e.is_dir = true → e.valid_name.isSome) →
      fetch_crates_from_local (some entries) =
        .ok ((entries.filter (fun e => e.is_dir)).filterMap (fun e => e.valid_name))) ∧
    fetch_crates_from_local
        (some [⟨true, some "foo"⟩, ⟨true, some "bar"⟩, ⟨false, some "readme.txt"⟩]) =
      .ok ["foo", "bar"] :=
  ⟨rfl, fun _ h => collectLocalCrates_err h, fun _ h => collectLocalCrates_ok h, rfl⟩

/-- Witness for C8: the two hypothesis-bearing branches discharged on
concrete directory listings. -/
theorem c8_local_discovery_witness :
    fetch_crates_from_local (some [⟨true, none⟩]) = .error .nameEncodingError ∧
    fetch_crates_from_local (some [⟨true, some "foo"⟩, ⟨false, some "x"⟩]) =
      .ok ((([⟨true, some "foo"⟩, ⟨false, some "x"⟩] : List DirEntry).filter
        (fun e => e.is_dir)).filterMap (fun e => e.valid_name)) :=
  ⟨c8_local_discovery.2.1 _ ⟨⟨true, none⟩, by simp, rfl, rfl⟩,
   c8_local_discovery.2.2.1 _ (by decide)⟩

/-- C9: `Path`-mode rendering emits the header line, the comment line, the
umbrella line binding `bevy` to the path, and one line per crate (in order)
binding it to `<path>/crates/<name>`; the claim's concrete block holds. -/
theorem c9_local_rendering :
    (∀ (path : String) (crates : List String),
      path_lines path crates =
        "[patch.crates-io]" :: "# Bevy Patch" ::
          ("bevy = \x7b path = \"" ++ path ++ "\" \x7d") ::
          crates.map
            (fun n => n ++ " = \x7b path = \"" ++ path ++ "/crates/" ++ n ++ "\" \x7d")) ∧
    path_lines "/repo" ["a", "b"] =
      ["[patch.crates-io]", "# Bevy Patch", "bevy = \x7b path = \"/repo\" \x7d",
       "a = \x7b path = \"/repo/crates/a\" \x7d", "b = \x7b path = \"/repo/crates/b\" \x7d"] :=
  ⟨fun _ _ => rfl, by decide⟩

/-- C10: in both modes the block text exists only when discovery succeeded;
a discovery failure yields an error (non-zero exit) — in git mode annotated
with the normalised repository and the ref used — and no output. -/
theorem c10_output_after_discovery :
    (∀ (path : String) (dir : Option (List DirEntry)) (e : LocalFetchError),
      fetch_crates_from_local dir = .error e →
      run_path path dir = .error e ∧ exitCode (run_path path dir) ≠ 0) ∧
    (∀ (path : String) (dir : Option (List DirEntry)) (crates : List String),
      fetch_crates_from_local dir = .ok crates →
      run_path path dir = .ok (joinLines (path_lines path crates)) ∧
        exitCode (run_path path dir) = 0) ∧
    (∀ (repo : String) (tag branch rev : Option String) (send : Option HttpAttempt)
        (cause : String),
      fetch_crates_from_github send = .error cause →
      run_git repo tag branch rev send =
          .error [gitContextMsg (user_friendly_repo repo) (git_ref tag branch rev), cause] ∧
        exitCode (run_git repo tag branch rev send) ≠ 0) ∧
    (∀ (repo : String) (tag branch rev : Option String) (send : Option HttpAttempt)
        (crates : List String),
      fetch_crates_from_github send = .ok crates →
      run_git repo tag branch rev send =
          .ok (joinLines (git_lines (user_friendly_repo repo) tag branch rev crates)) ∧
        exitCode (run_git repo tag branch rev send) = 0) := by
  refine ⟨fun path dir e h => ?_, fun path dir crates h => ?_,
    fun repo t b r send cause h => ?_, fun repo t b r send crates h => ?_⟩
  all_goals simp [run_path, run_git, exitCode, h]

/-- Witness for C10: the failure branches discharged on concrete failing
discoveries. -/
theorem c10_output_after_discovery_witness :
    run_path "/p" none = .error .ioError ∧
    run_git "aceeri" none none none none =
      .error [gitContextMsg (user_friendly_repo "aceeri") (git_ref none none none),
        "Failed to fetch from GitHub"] :=
  ⟨(c10_output_after_discovery.1 "/p" none .ioError rfl).1,
   (c10_output_after_discovery.2.2.1 "aceeri" none none none none
      "Failed to fetch from GitHub" rfl).1⟩
